import Mathlib

set_option linter.unusedSectionVars false
set_option linter.unusedVariables false

/-!
Shallow embedding of the indexmap repository's set-algebra iteration layer
(src/set/iter.rs) and, where the map engine itself is not part of the sources,
a model of the order-preserving hashed-index map built from the specification.
-/

set_option autoImplicit false

namespace IndexmapSpec

variable {α : Type} [DecidableEq α]

/-- A set is its ordered entry list (keys of the underlying entry store). -/
structure IndexSet (α : Type) where
  entries : List α

/-- Modelled from the spec: the Set Engine's `contains` (absent from src/,
only its callers in src/set/iter.rs are) reports keyed membership. -/
def IndexSet.contains (s : IndexSet α) (x : α) : Bool :=
  decide (x ∈ s.entries)

/-- Slice iterator over the remaining entries, front to back
(src/set/iter.rs `Iter`). -/
structure Iter (α : Type) where
  entries : List α

def IndexSet.iter (s : IndexSet α) : Iter α :=
  ⟨s.entries⟩

/-- Front-cursor step of the slice iterator. -/
def Iter.next : Iter α → Option (α × Iter α)
  | ⟨[]⟩ => none
  | ⟨x :: xs⟩ => some (x, ⟨xs⟩)

/-- Back-cursor step of the slice iterator. -/
def Iter.next_back (i : Iter α) : Option (α × Iter α) :=
  match i.entries.getLast? with
  | none => none
  | some x => some (x, ⟨i.entries.dropLast⟩)

def Iter.len (i : Iter α) : Nat :=
  i.entries.length

def Iter.size_hint (i : Iter α) : Nat × Option Nat :=
  (i.entries.length, some i.entries.length)

/-- `Difference(A, B)` holds A's iterator and a reference to B
(src/set/iter.rs lines 190-205). -/
structure Difference (α : Type) where
  iter : Iter α
  other : IndexSet α

def Difference.new (s other : IndexSet α) : Difference α :=
  ⟨s.iter, other⟩

/-- The filtering loop shared by the two cursors of `Difference::next` and
`Difference::next_back`: advance along the listed entries until one is found
that `o` does not contain, returning it and the entries not yet visited. -/
def seek (o : IndexSet α) : List α → Option (α × List α)
  | [] => none
  | x :: xs => if o.contains x then seek o xs else some (x, xs)

/-- `Difference::next`: pull from A's iterator until an item is found that
B does not contain (src/set/iter.rs lines 215-222). -/
def Difference.next (d : Difference α) : Option (α × Difference α) :=
  (seek d.other d.iter.entries).map (fun p => (p.1, ⟨⟨p.2⟩, d.other⟩))

/-- `Difference::next_back`: pull from the back of A's iterator until an item
is found that B does not contain (src/set/iter.rs lines 235-242).  The back
cursor walks the entries last-to-first, so it is the same seek applied to the
reversed remaining entries. -/
def Difference.next_back (d : Difference α) : Option (α × Difference α) :=
  (seek d.other d.iter.entries.reverse).map (fun p => (p.1, ⟨⟨p.2.reverse⟩, d.other⟩))

/-- `Difference::size_hint`: lower bound 0, upper bound from A's iterator
(src/set/iter.rs lines 224-227). -/
def Difference.size_hint (d : Difference α) : Nat × Option Nat :=
  (0, d.iter.size_hint.2)

/-- `Intersection(A, B)` (src/set/iter.rs lines 277-292). -/
structure Intersection (α : Type) where
  iter : Iter α
  other : IndexSet α

def Intersection.new (s other : IndexSet α) : Intersection α :=
  ⟨s.iter, other⟩

/-- The filtering loop of `Intersection::next`: advance until an item is
found that `o` does contain (the containment test of `seek`, inverted). -/
def seekIn (o : IndexSet α) : List α → Option (α × List α)
  | [] => none
  | x :: xs => if o.contains x then some (x, xs) else seekIn o xs

/-- `Intersection::next`: pull from A's iterator until an item is found that
B contains (src/set/iter.rs lines 302-309). -/
def Intersection.next (i : Intersection α) : Option (α × Intersection α) :=
  (seekIn i.other i.iter.entries).map (fun p => (p.1, ⟨⟨p.2⟩, i.other⟩))

/-- `Intersection::size_hint` (src/set/iter.rs lines 311-314). -/
def Intersection.size_hint (i : Intersection α) : Nat × Option Nat :=
  (0, i.iter.size_hint.2)

/-- Fuel-indexed driver: pull `next` repeatedly, collecting the yielded items,
stopping at `none` or when the fuel runs out.  With fuel at least the number
of items the iterator can still yield, this is iteration to exhaustion. -/
def drain {σ : Type} (next : σ → Option (α × σ)) : Nat → σ → List α
  | 0, _ => []
  | fuel + 1, s =>
    match next s with
    | none => []
    | some (x, s2) => x :: drain next fuel s2

/-- Forward iteration of `Difference` run to exhaustion. -/
def Difference.toList (d : Difference α) : List α :=
  drain Difference.next d.iter.entries.length d

/-- Backward iteration of `Difference` run to exhaustion. -/
def Difference.toListBack (d : Difference α) : List α :=
  drain Difference.next_back d.iter.entries.length d

/-- Forward iteration of `Intersection` run to exhaustion. -/
def Intersection.toList (i : Intersection α) : List α :=
  drain Intersection.next i.iter.entries.length i

theorem drain_congr_head {σ : Type} (next : σ → Option (α × σ)) (s1 s2 : σ)
    (h : next s1 = next s2) : ∀ fuel, drain next fuel s1 = drain next fuel s2 := by
  intro fuel
  cases fuel with
  | zero => rfl
  | succ n => simp only [drain, h]

theorem difference_drain_eq_filter (o : IndexSet α) :
    ∀ (l : List α) (fuel : Nat), l.length ≤ fuel →
      drain Difference.next fuel ⟨⟨l⟩, o⟩ = l.filter (fun x => !(o.contains x)) := by
  intro l
  induction l with
  | nil =>
    intro fuel _
    cases fuel with
    | zero => rfl
    | succ n => simp [drain, Difference.next, seek]
  | cons a as ih =>
    intro fuel hf
    cases fuel with
    | zero => exact absurd hf (by simp)
    | succ n =>
      by_cases hc : o.contains a
      · have hnext : Difference.next ⟨⟨a :: as⟩, o⟩ = Difference.next ⟨⟨as⟩, o⟩ := by
          simp [Difference.next, seek, hc]
        have := drain_congr_head (Difference.next) ⟨⟨a :: as⟩, o⟩ ⟨⟨as⟩, o⟩ hnext (n + 1)
        rw [this, ih (n + 1) (Nat.le_succ_of_le (Nat.le_of_succ_le_succ hf))]
        simp [List.filter, hc]
      · have hnext : Difference.next ⟨⟨a :: as⟩, o⟩ = some (a, ⟨⟨as⟩, o⟩) := by
          simp [Difference.next, seek, hc]
        have hih := ih n (Nat.le_of_succ_le_succ hf)
        simp [drain, hnext, hih, List.filter, hc]

theorem difference_next_back_concat (o : IndexSet α) (l : List α) (x : α) :
    Difference.next_back ⟨⟨l ++ [x]⟩, o⟩ =
      if o.contains x then Difference.next_back ⟨⟨l⟩, o⟩ else some (x, ⟨⟨l⟩, o⟩) := by
  by_cases hc : o.contains x
  · simp [Difference.next_back, List.reverse_append, seek, hc]
  · simp [Difference.next_back, List.reverse_append, seek, hc]

theorem difference_next_back_nil (o : IndexSet α) :
    Difference.next_back (⟨⟨[]⟩, o⟩ : Difference α) = none := by
  simp [Difference.next_back, seek]

theorem difference_drain_back_eq_filter_reverse (o : IndexSet α) :
    ∀ (l : List α) (fuel : Nat), l.length ≤ fuel →
      drain Difference.next_back fuel ⟨⟨l⟩, o⟩ =
        (l.filter (fun x => !(o.contains x))).reverse := by
  intro l
  induction l using List.reverseRecOn with
  | nil =>
    intro fuel _
    cases fuel with
    | zero => rfl
    | succ n => simp [drain, difference_next_back_nil]
  | append_singleton as a ih =>
    intro fuel hf
    rw [List.length_append, List.length_singleton] at hf
    cases fuel with
    | zero => exact absurd hf (by simp)
    | succ n =>
      by_cases hc : o.contains a
      · have hnext : Difference.next_back ⟨⟨as ++ [a]⟩, o⟩ = Difference.next_back ⟨⟨as⟩, o⟩ := by
          rw [difference_next_back_concat, if_pos hc]
        rw [drain_congr_head (Difference.next_back) _ _ hnext (n + 1),
          ih (n + 1) (Nat.le_succ_of_le (Nat.le_of_succ_le_succ hf))]
        simp [List.filter_append, List.filter, hc]
      · have hnext : Difference.next_back ⟨⟨as ++ [a]⟩, o⟩ = some (a, ⟨⟨as⟩, o⟩) := by
          rw [difference_next_back_concat, if_neg hc]
        have hih := ih n (Nat.le_of_succ_le_succ hf)
        simp [drain, hnext, hih, List.filter_append, List.filter, hc]

theorem intersection_drain_eq_filter (o : IndexSet α) :
    ∀ (l : List α) (fuel : Nat), l.length ≤ fuel →
      drain Intersection.next fuel ⟨⟨l⟩, o⟩ = l.filter (fun x => o.contains x) := by
  intro l
  induction l with
  | nil =>
    intro fuel _
    cases fuel with
    | zero => rfl
    | succ n => simp [drain, Intersection.next, seekIn]
  | cons a as ih =>
    intro fuel hf
    cases fuel with
    | zero => exact absurd hf (by simp)
    | succ n =>
      by_cases hc : o.contains a
      · have hnext : Intersection.next ⟨⟨a :: as⟩, o⟩ = some (a, ⟨⟨as⟩, o⟩) := by
          simp [Intersection.next, seekIn, hc]
        have hih := ih n (Nat.le_of_succ_le_succ hf)
        simp [drain, hnext, hih, List.filter, hc]
      · have hnext : Intersection.next ⟨⟨a :: as⟩, o⟩ = Intersection.next ⟨⟨as⟩, o⟩ := by
          simp [Intersection.next, seekIn, hc]
        rw [drain_congr_head (Intersection.next) _ _ hnext (n + 1),
          ih (n + 1) (Nat.le_succ_of_le (Nat.le_of_succ_le_succ hf))]
        simp [List.filter, hc]

/-- The state of `core::iter::Chain`, as used by `Union` and
`SymmetricDifference` (src/set/iter.rs lines 364-366 and 466-468). -/
structure Chain (σ₁ σ₂ : Type) where
  first : Option σ₁
  second : Option σ₂

/-- `Chain::next`: drain the first iterator, then the second. -/
def Chain.next {σ₁ σ₂ : Type} (nA : σ₁ → Option (α × σ₁)) (nB : σ₂ → Option (α × σ₂)) :
    Chain σ₁ σ₂ → Option (α × Chain σ₁ σ₂)
  | ⟨some a, b⟩ =>
    match nA a with
    | some (x, a2) => some (x, ⟨some a2, b⟩)
    | none =>
      match b with
      | some sb =>
        match nB sb with
        | some (x, b2) => some (x, ⟨none, some b2⟩)
        | none => none
      | none => none
  | ⟨none, some sb⟩ =>
    match nB sb with
    | some (x, b2) => some (x, ⟨none, some b2⟩)
    | none => none
  | ⟨none, none⟩ => none

theorem chain_next_first_congr {σ₁ σ₂ : Type} (nA : σ₁ → Option (α × σ₁))
    (nB : σ₂ → Option (α × σ₂)) (a1 a2 : σ₁) (b : Option σ₂) (h : nA a1 = nA a2) :
    Chain.next nA nB ⟨some a1, b⟩ = Chain.next nA nB ⟨some a2, b⟩ := by
  simp only [Chain.next, h]

theorem chain_drain_none_some {σ₁ σ₂ : Type} (nA : σ₁ → Option (α × σ₁))
    (nB : σ₂ → Option (α × σ₂)) :
    ∀ (fuel : Nat) (sb : σ₂),
      drain (Chain.next nA nB) fuel ⟨none, some sb⟩ = drain nB fuel sb := by
  intro fuel
  induction fuel with
  | zero => intro sb; rfl
  | succ n ih =>
    intro sb
    cases hnb : nB sb with
    | none => simp [drain, Chain.next, hnb]
    | some p => simp [drain, Chain.next, hnb, ih]

theorem chain_drain_first_exhausted {σ₁ σ₂ : Type} (nA : σ₁ → Option (α × σ₁))
    (nB : σ₂ → Option (α × σ₂)) (a : σ₁) (ha : nA a = none) :
    ∀ (fuel : Nat) (sb : σ₂),
      drain (Chain.next nA nB) fuel ⟨some a, some sb⟩ = drain nB fuel sb := by
  intro fuel sb
  cases fuel with
  | zero => rfl
  | succ n =>
    cases hnb : nB sb with
    | none => simp [drain, Chain.next, ha, hnb]
    | some p => simp [drain, Chain.next, ha, hnb, chain_drain_none_some]

/-- `Union(A, B)` is `A.iter().chain(B.difference(A))`
(src/set/iter.rs lines 476-487). -/
abbrev Union (α : Type) : Type := Chain (Iter α) (Difference α)

def Union.new (set1 set2 : IndexSet α) : Union α :=
  ⟨some set1.iter, some (Difference.new set2 set1)⟩

/-- `Union::next` delegates to the chain (src/set/iter.rs lines 497-499). -/
def Union.next : Union α → Option (α × Union α) :=
  Chain.next Iter.next Difference.next

/-- Fuel sufficient to exhaust a union iterator. -/
def Union.fuel (u : Union α) : Nat :=
  (match u.first with
    | some i => i.entries.length
    | none => 0) +
  (match u.second with
    | some d => d.iter.entries.length
    | none => 0)

/-- Forward iteration of `Union` run to exhaustion. -/
def Union.toList (u : Union α) : List α :=
  drain Union.next u.fuel u

/-- `SymmetricDifference(A, B)` is `A.difference(B).chain(B.difference(A))`
(src/set/iter.rs lines 376-383). -/
abbrev SymmetricDifference (α : Type) : Type := Chain (Difference α) (Difference α)

def SymmetricDifference.new (set1 set2 : IndexSet α) : SymmetricDifference α :=
  ⟨some (Difference.new set1 set2), some (Difference.new set2 set1)⟩

/-- `SymmetricDifference::next` delegates to the chain
(src/set/iter.rs lines 395-397). -/
def SymmetricDifference.next : SymmetricDifference α → Option (α × SymmetricDifference α) :=
  Chain.next Difference.next Difference.next

theorem union_drain_eq (oA : IndexSet α) :
    ∀ (lA : List α) (d : Difference α) (fuel : Nat),
      lA.length + d.iter.entries.length ≤ fuel →
      drain Union.next fuel ⟨some ⟨lA⟩, some d⟩ =
        lA ++ d.iter.entries.filter (fun x => !(d.other.contains x)) := by
  intro lA
  induction lA with
  | nil =>
    intro d fuel hf
    obtain ⟨⟨l⟩, o⟩ := d
    have h0 : Iter.next (⟨[]⟩ : Iter α) = none := rfl
    rw [Union.next, chain_drain_first_exhausted Iter.next Difference.next _ h0 fuel,
      difference_drain_eq_filter o l fuel (by simpa using hf)]
    rfl
  | cons a as ih =>
    intro d fuel hf
    cases fuel with
    | zero => exact absurd hf (by simp)
    | succ n =>
      have hstep : Union.next ⟨some ⟨a :: as⟩, some d⟩ = some (a, ⟨some ⟨as⟩, some d⟩) := rfl
      have hn : as.length + d.iter.entries.length ≤ n := by
        have := hf
        simp only [List.length_cons] at this
        omega
      have hih := ih d n hn
      simp [drain, hstep, hih]

theorem symmetric_difference_drain_eq (o1 : IndexSet α) :
    ∀ (l1 : List α) (d2 : Difference α) (fuel : Nat),
      l1.length + d2.iter.entries.length ≤ fuel →
      drain SymmetricDifference.next fuel ⟨some ⟨⟨l1⟩, o1⟩, some d2⟩ =
        l1.filter (fun x => !(o1.contains x)) ++
          d2.iter.entries.filter (fun x => !(d2.other.contains x)) := by
  intro l1
  induction l1 with
  | nil =>
    intro d2 fuel hf
    obtain ⟨⟨l⟩, o⟩ := d2
    have h0 : Difference.next (⟨⟨[]⟩, o1⟩ : Difference α) = none := by
      simp [Difference.next, seek]
    rw [SymmetricDifference.next,
      chain_drain_first_exhausted Difference.next Difference.next _ h0 fuel,
      difference_drain_eq_filter o l fuel (by simpa using hf)]
    rfl
  | cons a as ih =>
    intro d2 fuel hf
    by_cases hc : o1.contains a
    · have hnext : Difference.next ⟨⟨a :: as⟩, o1⟩ = Difference.next ⟨⟨as⟩, o1⟩ := by
        simp [Difference.next, seek, hc]
      have hchain := chain_next_first_congr Difference.next Difference.next
        ⟨⟨a :: as⟩, o1⟩ ⟨⟨as⟩, o1⟩ (some d2) hnext
      rw [SymmetricDifference.next] at *
      rw [drain_congr_head _ _ _ hchain fuel,
        ih d2 fuel (by simp only [List.length_cons] at hf; omega)]
      simp [List.filter, hc]
    · cases fuel with
      | zero => exact absurd hf (by simp)
      | succ n =>
        have hstep : SymmetricDifference.next ⟨some ⟨⟨a :: as⟩, o1⟩, some d2⟩ =
            some (a, ⟨some ⟨⟨as⟩, o1⟩, some d2⟩) := by
          rw [SymmetricDifference.next]
          have hnext : Difference.next ⟨⟨a :: as⟩, o1⟩ = some (a, ⟨⟨as⟩, o1⟩) := by
            simp [Difference.next, seek, hc]
          simp only [Chain.next, hnext]
        have hn : as.length + d2.iter.entries.length ≤ n := by
          simp only [List.length_cons] at hf; omega
        have hih := ih d2 n hn
        simp [drain, hstep, hih, List.filter, hc]

/-- Front/back cursor driver for the slice iterator: applies the listed
cursor steps (`true` = `next`, `false` = `next_back`), returning the items
yielded at the front, the items yielded at the back (in yield order), and the
remaining iterator. -/
def Iter.run : List Bool → Iter α → List α × List α × Iter α
  | [], i => ([], [], i)
  | true :: ds, i =>
    match i.next with
    | none => Iter.run ds i
    | some (x, i2) =>
      let r := Iter.run ds i2
      (x :: r.1, r.2.1, r.2.2)
  | false :: ds, i =>
    match i.next_back with
    | none => Iter.run ds i
    | some (x, i2) =>
      let r := Iter.run ds i2
      (r.1, x :: r.2.1, r.2.2)

theorem getLast?_some_decomp (l : List α) (x : α) (h : l.getLast? = some x) :
    l.dropLast ++ [x] = l := by
  cases l using List.reverseRecOn with
  | nil => simp at h
  | append_singleton as a =>
    rw [List.getLast?_concat] at h
    obtain rfl : a = x := by injection h
    simp [List.dropLast_concat]

theorem iter_run_decomp :
    ∀ (ds : List Bool) (i : Iter α),
      (i.run ds).1 ++ (i.run ds).2.2.entries ++ (i.run ds).2.1.reverse = i.entries := by
  intro ds
  induction ds with
  | nil => intro i; simp [Iter.run]
  | cons d ds ih =>
    intro i
    cases d with
    | true =>
      obtain ⟨l⟩ := i
      cases l with
      | nil =>
        have hnil : Iter.next (⟨[]⟩ : Iter α) = none := rfl
        simp only [Iter.run, hnil]
        exact ih ⟨[]⟩
      | cons x xs =>
        have hnext : Iter.next (⟨x :: xs⟩ : Iter α) = some (x, ⟨xs⟩) := rfl
        simp only [Iter.run, hnext]
        have := ih ⟨xs⟩
        simp only [List.cons_append]
        rw [this]
    | false =>
      obtain ⟨l⟩ := i
      cases hl : l.getLast? with
      | none =>
        have hnb : Iter.next_back (⟨l⟩ : Iter α) = none := by
          simp [Iter.next_back, hl]
        simp only [Iter.run, hnb]
        exact ih ⟨l⟩
      | some x =>
        have hnb : Iter.next_back (⟨l⟩ : Iter α) = some (x, ⟨l.dropLast⟩) := by
          simp [Iter.next_back, hl]
        simp only [Iter.run, hnb]
        have hdec := getLast?_some_decomp l x hl
        have := ih ⟨l.dropLast⟩
        simp only [List.reverse_cons]
        rw [← List.append_assoc]
        rw [this, hdec]

theorem iter_run_len :
    ∀ (ds : List Bool) (i : Iter α),
      (i.run ds).2.2.len + ((i.run ds).1.length + (i.run ds).2.1.length) =
        i.entries.length := by
  intro ds i
  have h := iter_run_decomp ds i
  have hlen := congrArg List.length h
  simp only [List.length_append, List.length_reverse] at hlen
  rw [Iter.len]
  omega

theorem iter_run_empty :
    ∀ (ds : List Bool), Iter.run ds (⟨[]⟩ : Iter α) = ([], [], (⟨[]⟩ : Iter α)) := by
  intro ds
  induction ds with
  | nil => rfl
  | cons d ds ih =>
    cases d with
    | true =>
      have hnil : Iter.next (⟨[]⟩ : Iter α) = none := rfl
      simp only [Iter.run, hnil]
      exact ih
    | false =>
      have hnb : Iter.next_back (⟨[]⟩ : Iter α) = none := by
        simp [Iter.next_back]
      simp only [Iter.run, hnb]
      exact ih

theorem length_filter_split (l : List α) (p : α → Bool) :
    (l.filter p).length + (l.filter (fun x => !(p x))).length = l.length := by
  induction l with
  | nil => rfl
  | cons a as ih =>
    by_cases h : p a <;> simp [List.filter, h, ← ih] <;> omega

theorem length_filter_contains_comm (A B : IndexSet α)
    (hA : A.entries.Nodup) (hB : B.entries.Nodup) :
    (A.entries.filter (fun x => B.contains x)).length =
      (B.entries.filter (fun x => A.contains x)).length := by
  have e : ∀ (a b : List α), a.Nodup →
      (a.filter (fun x => decide (x ∈ b))).length = (a.toFinset ∩ b.toFinset).card := by
    intro a b ha
    rw [← List.toFinset_card_of_nodup (ha.filter _), List.toFinset_filter]
    congr 1
    ext x
    simp
  simp only [IndexSet.contains]
  rw [e A.entries B.entries hA, e B.entries A.entries hB, Finset.inter_comm]

/-- C2: forward iteration of `Difference(A, B)` yields exactly the elements of
A rejected by B's `contains`, in A's iteration order, i.e. it equals filtering
A's entry list by not-contains-in-B. -/
theorem difference_yields_filter (A B : IndexSet α) (fuel : Nat)
    (hfuel : A.entries.length ≤ fuel) :
    drain Difference.next fuel (Difference.new A B) =
      A.entries.filter (fun x => !(B.contains x)) :=
  difference_drain_eq_filter B A.entries fuel hfuel

theorem difference_yields_filter_witness :
    ([1, 2, 3] : List Nat).length ≤ 3 ∧
      drain Difference.next 3 (Difference.new (⟨[1, 2, 3]⟩ : IndexSet Nat) ⟨[2, 4]⟩) =
        ([1, 2, 3] : List Nat).filter
          (fun x => !((⟨[2, 4]⟩ : IndexSet Nat).contains x)) ∧
      drain Difference.next 3 (Difference.new (⟨[1, 2, 3]⟩ : IndexSet Nat) ⟨[2, 4]⟩) =
        [1, 3] :=
  ⟨by decide, difference_yields_filter ⟨[1, 2, 3]⟩ ⟨[2, 4]⟩ 3 (by decide), by decide⟩

/-- C4: forward iteration of `Intersection(A, B)` yields exactly the elements
of A present in B, in A's iteration order: it is `Difference` with the
containment test inverted. -/
theorem intersection_yields_filter (A B : IndexSet α) (fuel : Nat)
    (hfuel : A.entries.length ≤ fuel) :
    drain Intersection.next fuel (Intersection.new A B) =
      A.entries.filter (fun x => B.contains x) :=
  intersection_drain_eq_filter B A.entries fuel hfuel

theorem intersection_yields_filter_witness :
    ([1, 2, 3] : List Nat).length ≤ 3 ∧
      drain Intersection.next 3 (Intersection.new (⟨[1, 2, 3]⟩ : IndexSet Nat) ⟨[2, 4]⟩) =
        ([1, 2, 3] : List Nat).filter (fun x => (⟨[2, 4]⟩ : IndexSet Nat).contains x) ∧
      drain Intersection.next 3 (Intersection.new (⟨[1, 2, 3]⟩ : IndexSet Nat) ⟨[2, 4]⟩) =
        [2] :=
  ⟨by decide, intersection_yields_filter ⟨[1, 2, 3]⟩ ⟨[2, 4]⟩ 3 (by decide), by decide⟩

/-- C8: repeatedly calling `next_back` on `Difference(A, B)` yields exactly
the reverse of the sequence that forward iteration yields. -/
theorem difference_back_yields_reverse (A B : IndexSet α) (fuel : Nat)
    (hfuel : A.entries.length ≤ fuel) :
    drain Difference.next_back fuel (Difference.new A B) =
      (drain Difference.next fuel (Difference.new A B)).reverse := by
  show drain Difference.next_back fuel ⟨⟨A.entries⟩, B⟩ =
    (drain Difference.next fuel ⟨⟨A.entries⟩, B⟩).reverse
  rw [difference_drain_eq_filter B A.entries fuel hfuel,
    difference_drain_back_eq_filter_reverse B A.entries fuel hfuel]

theorem difference_back_yields_reverse_witness :
    ([1, 2, 3] : List Nat).length ≤ 3 ∧
      drain Difference.next_back 3 (Difference.new (⟨[1, 2, 3]⟩ : IndexSet Nat) ⟨[2, 4]⟩) =
        (drain Difference.next 3
          (Difference.new (⟨[1, 2, 3]⟩ : IndexSet Nat) ⟨[2, 4]⟩)).reverse ∧
      drain Difference.next_back 3 (Difference.new (⟨[1, 2, 3]⟩ : IndexSet Nat) ⟨[2, 4]⟩) =
        [3, 1] :=
  ⟨by decide, difference_back_yields_reverse ⟨[1, 2, 3]⟩ ⟨[2, 4]⟩ 3 (by decide), by decide⟩

/-- C5: iterating `SymmetricDifference(A, B)` yields exactly the sequence of
`Difference(A, B)` iterated to exhaustion followed by `Difference(B, A)`
iterated to exhaustion. -/
theorem symmetric_difference_chains_differences (A B : IndexSet α) (fuel : Nat)
    (hfuel : A.entries.length + B.entries.length ≤ fuel) :
    drain SymmetricDifference.next fuel (SymmetricDifference.new A B) =
      Difference.toList (Difference.new A B) ++ Difference.toList (Difference.new B A) := by
  show drain SymmetricDifference.next fuel ⟨some ⟨⟨A.entries⟩, B⟩, some ⟨⟨B.entries⟩, A⟩⟩ =
    Difference.toList ⟨⟨A.entries⟩, B⟩ ++ Difference.toList ⟨⟨B.entries⟩, A⟩
  have h := symmetric_difference_drain_eq B A.entries
    (⟨⟨B.entries⟩, A⟩ : Difference α) fuel hfuel
  rw [h]
  simp only [Difference.toList]
  rw [difference_drain_eq_filter B A.entries _ (Nat.le_refl _),
    difference_drain_eq_filter A B.entries _ (Nat.le_refl _)]

theorem symmetric_difference_chains_differences_witness :
    ([1, 2] : List Nat).length + ([2, 3] : List Nat).length ≤ 4 ∧
      drain SymmetricDifference.next 4
          (SymmetricDifference.new (⟨[1, 2]⟩ : IndexSet Nat) ⟨[2, 3]⟩) =
        Difference.toList (Difference.new (⟨[1, 2]⟩ : IndexSet Nat) ⟨[2, 3]⟩) ++
          Difference.toList (Difference.new (⟨[2, 3]⟩ : IndexSet Nat) ⟨[1, 2]⟩) ∧
      drain SymmetricDifference.next 4
          (SymmetricDifference.new (⟨[1, 2]⟩ : IndexSet Nat) ⟨[2, 3]⟩) = [1, 3] :=
  ⟨by decide, symmetric_difference_chains_differences ⟨[1, 2]⟩ ⟨[2, 3]⟩ 4 (by decide),
    by decide⟩

theorem union_yields_spec (A B : IndexSet α) (fuel : Nat)
    (hA : A.entries.Nodup) (hB : B.entries.Nodup)
    (hfuel : A.entries.length + B.entries.length ≤ fuel) :
    drain Union.next fuel (Union.new A B) =
      A.entries ++ B.entries.filter (fun x => !(A.contains x)) ∧
    (drain Union.next fuel (Union.new A B)).Nodup := by
  have h := union_drain_eq A A.entries (⟨⟨B.entries⟩, A⟩ : Difference α) fuel hfuel
  have heq : drain Union.next fuel (Union.new A B) =
      A.entries ++ B.entries.filter (fun x => !(A.contains x)) := by
    show drain Union.next fuel ⟨some ⟨A.entries⟩, some ⟨⟨B.entries⟩, A⟩⟩ =
      A.entries ++ B.entries.filter (fun x => !(A.contains x))
    exact h
  refine ⟨heq, ?_⟩
  rw [heq, List.nodup_append]
  refine ⟨hA, hB.filter _, ?_⟩
  intro x hxA hxB
  have := List.of_mem_filter hxB
  simp [IndexSet.contains] at this
  exact this hxA

/-- C3: iterating `Union(A, B)` yields all of A's elements in A's internal
order, then the elements of B not in A in B's internal order, and (for sets,
whose entry lists hold no duplicate keys) each key appears exactly once. -/
theorem union_yields_A_then_B_only (A B : IndexSet α) (fuel : Nat)
    (hA : A.entries.Nodup) (hB : B.entries.Nodup)
    (hfuel : A.entries.length + B.entries.length ≤ fuel) :
    drain Union.next fuel (Union.new A B) =
      A.entries ++ B.entries.filter (fun x => !(A.contains x)) ∧
    (drain Union.next fuel (Union.new A B)).Nodup :=
  union_yields_spec A B fuel hA hB hfuel

theorem union_yields_A_then_B_only_witness :
    ([1, 2] : List Nat).Nodup ∧ ([2, 3] : List Nat).Nodup ∧
      ([1, 2] : List Nat).length + ([2, 3] : List Nat).length ≤ 4 ∧
      (drain Union.next 4 (Union.new (⟨[1, 2]⟩ : IndexSet Nat) ⟨[2, 3]⟩) =
          ([1, 2] : List Nat) ++
            ([2, 3] : List Nat).filter
              (fun x => !((⟨[1, 2]⟩ : IndexSet Nat).contains x)) ∧
        (drain Union.next 4 (Union.new (⟨[1, 2]⟩ : IndexSet Nat) ⟨[2, 3]⟩)).Nodup) :=
  ⟨by decide, by decide, by decide,
    union_yields_A_then_B_only ⟨[1, 2]⟩ ⟨[2, 3]⟩ 4 (by decide) (by decide) (by decide)⟩

/-- C6: the sequence yielded by `Union(A, B)` has no duplicates, and its
length is `|A| + |B|` minus the length of the `Intersection(A, B)` sequence
(for sets, whose entry lists hold no duplicate keys). -/
theorem union_nodup_and_length (A B : IndexSet α)
    (hA : A.entries.Nodup) (hB : B.entries.Nodup) :
    (Union.toList (Union.new A B)).Nodup ∧
    (Union.toList (Union.new A B)).length =
      A.entries.length + B.entries.length -
        (Intersection.toList (Intersection.new A B)).length := by
  have hfuel : A.entries.length + B.entries.length ≤ Union.fuel (Union.new A B) := by
    simp [Union.fuel, Union.new, Difference.new, IndexSet.iter]
  have h := union_yields_spec A B (Union.fuel (Union.new A B)) hA hB hfuel
  rw [Union.toList]
  refine ⟨h.2, ?_⟩
  rw [h.1, Intersection.toList]
  have hint : drain Intersection.next
      (Intersection.new A B).iter.entries.length (Intersection.new A B) =
      A.entries.filter (fun x => B.contains x) :=
    intersection_drain_eq_filter B A.entries _ (Nat.le_refl _)
  rw [hint]
  have hsplit := length_filter_split B.entries (fun x => A.contains x)
  have hcomm := length_filter_contains_comm A B hA hB
  have hle : (A.entries.filter (fun x => B.contains x)).length ≤ A.entries.length :=
    List.length_filter_le _ _
  simp only [List.length_append]
  omega

theorem union_nodup_and_length_witness :
    ([1, 2] : List Nat).Nodup ∧ ([2, 3] : List Nat).Nodup ∧
      ((Union.toList (Union.new (⟨[1, 2]⟩ : IndexSet Nat) ⟨[2, 3]⟩)).Nodup ∧
        (Union.toList (Union.new (⟨[1, 2]⟩ : IndexSet Nat) ⟨[2, 3]⟩)).length =
          ([1, 2] : List Nat).length + ([2, 3] : List Nat).length -
            (Intersection.toList
              (Intersection.new (⟨[1, 2]⟩ : IndexSet Nat) ⟨[2, 3]⟩)).length) :=
  ⟨by decide, by decide, union_nodup_and_length ⟨[1, 2]⟩ ⟨[2, 3]⟩ (by decide) (by decide)⟩

/-- C7: the set iterator is double-ended (front and back cursors jointly
yield each entry exactly once, meeting in the middle), `len` always equals
the exact number of entries not yet yielded from either end, and it is fused
(an exhausted iterator yields nothing from either end, forever). -/
theorem iter_double_ended_exact_fused (i : Iter α) (ds ds2 : List Bool) :
    (i.run ds).1 ++ (i.run ds).2.2.entries ++ (i.run ds).2.1.reverse = i.entries ∧
    (i.run ds).2.2.len + ((i.run ds).1.length + (i.run ds).2.1.length) =
      i.entries.length ∧
    Iter.run ds2 (⟨[]⟩ : Iter α) = ([], [], (⟨[]⟩ : Iter α)) ∧
    (Iter.next i = none ↔ i.entries = []) := by
  refine ⟨iter_run_decomp ds i, iter_run_len ds i, iter_run_empty ds2, ?_⟩
  obtain ⟨l⟩ := i
  cases l with
  | nil => simp [Iter.next]
  | cons x xs => simp [Iter.next]

theorem iter_double_ended_exact_fused_witness :
    ((⟨[1, 2, 3]⟩ : Iter Nat).run [true, false]).1 ++
        ((⟨[1, 2, 3]⟩ : Iter Nat).run [true, false]).2.2.entries ++
        ((⟨[1, 2, 3]⟩ : Iter Nat).run [true, false]).2.1.reverse = [1, 2, 3] ∧
      ((⟨[1, 2, 3]⟩ : Iter Nat).run [true, false]).2.2.len +
        (((⟨[1, 2, 3]⟩ : Iter Nat).run [true, false]).1.length +
          ((⟨[1, 2, 3]⟩ : Iter Nat).run [true, false]).2.1.length) =
        ([1, 2, 3] : List Nat).length ∧
      Iter.run [true, false] (⟨[]⟩ : Iter Nat) = ([], [], (⟨[]⟩ : Iter Nat)) ∧
      (Iter.next (⟨[1, 2, 3]⟩ : Iter Nat) = none ↔ ([1, 2, 3] : List Nat) = []) :=
  iter_double_ended_exact_fused ⟨[1, 2, 3]⟩ [true, false] [true, false]

/-- C10: at every state, the `size_hint` of `Difference(A, B)` and
`Intersection(A, B)` is `(0, upper bound of A's remaining iterator)`: lower
bound 0, upper bound the count of A's unvisited entries, independent of B. -/
theorem difference_intersection_size_hint (it : Iter α) (o o2 : IndexSet α) :
    Difference.size_hint ⟨it, o⟩ = (0, some it.entries.length) ∧
    Intersection.size_hint ⟨it, o⟩ = (0, some it.entries.length) ∧
    Difference.size_hint ⟨it, o⟩ = Difference.size_hint ⟨it, o2⟩ ∧
    Intersection.size_hint ⟨it, o⟩ = Intersection.size_hint ⟨it, o2⟩ :=
  ⟨rfl, rfl, rfl, rfl⟩

/-- A record of the Entry Store: precomputed hash, key and value
(src/lib.rs `Bucket`), specialized to natural-number keys and values. -/
structure Bucket where
  hash : Nat
  key : Nat
  value : Nat
deriving DecidableEq

/-- Modelled from the spec: the Map Engine's state (spec §2-§3; the map
engine sources are not under src/, only the `Bucket` record and the set
iteration layer are).  `entries` is the dense order-preserving Entry Store;
`index` is the Hashed Index, a collection of slots each holding a
`(hash, position)` pair (spec §4.1: the index stores only `(hash, position)`,
never keys). -/
structure IndexMapModel where
  entries : List Bucket
  index : List (Nat × Nat)
deriving DecidableEq

/-- Modelled from the spec (§4.1): `probe(hash)` finds a slot whose stored
hash equals the probed hash and whose record's key compares equal, reporting
the record's position. -/
def probePos (m : IndexMapModel) (hv k : Nat) : Option Nat :=
  (m.index.find? (fun s =>
    s.1 == hv &&
      (match m.entries[s.2]? with
        | some b => b.key == k
        | none => false))).map (fun s => s.2)

/-- Modelled from the spec (§4.2): compute the hash and probe; on a match
replace the record's value in place at its existing position; otherwise
append a record at position `len` and claim an index slot `hash -> len`. -/
def IndexMapModel.insert (m : IndexMapModel) (h : Nat → Nat) (k v : Nat) :
    IndexMapModel :=
  let hv := h k
  match probePos m hv k with
  | some p =>
    match m.entries[p]? with
    | some b => { m with entries := m.entries.set p ⟨b.hash, b.key, v⟩ }
    | none => m
  | none =>
    { entries := m.entries ++ [⟨hv, k, v⟩],
      index := m.index ++ [(hv, m.entries.length)] }

/-- Modelled from the spec (§4.3): swap-remove probes for the key; if absent
it is a no-op signalling "absent"; otherwise it moves the last record into
the removed slot (if the slot is not already last), shrinks the store by one,
deletes the removed record's index slot and repoints the moved record's slot. -/
def IndexMapModel.swap_remove (m : IndexMapModel) (h : Nat → Nat) (k : Nat) :
    Option (Nat × Nat) × IndexMapModel :=
  match probePos m (h k) k with
  | none => (none, m)
  | some p =>
    match m.entries[p]? with
    | none => (none, m)
    | some b =>
      let last := m.entries.length - 1
      if p = last then
        (some (b.key, b.value),
          { entries := m.entries.dropLast,
            index := m.index.filter (fun s => !(s.2 == p)) })
      else
        match m.entries[last]? with
        | none => (none, m)
        | some bl =>
          (some (b.key, b.value),
            { entries := (m.entries.set p bl).dropLast,
              index := (m.index.filter (fun s => !(s.2 == p))).map
                (fun s => if s.2 = last then (s.1, p) else s) })

/-- Modelled from the spec (§4.3): shift-remove probes for the key; if absent
it is a no-op signalling "absent"; otherwise it removes the record at its
position, shifting every subsequent record down by one, deletes the removed
slot and decrements every shifted record's slot position. -/
def IndexMapModel.shift_remove (m : IndexMapModel) (h : Nat → Nat) (k : Nat) :
    Option (Nat × Nat) × IndexMapModel :=
  match probePos m (h k) k with
  | none => (none, m)
  | some p =>
    match m.entries[p]? with
    | none => (none, m)
    | some b =>
      (some (b.key, b.value),
        { entries := m.entries.eraseIdx p,
          index := (m.index.filter (fun s => !(s.2 == p))).map
            (fun s => if p < s.2 then (s.1, s.2 - 1) else s) })

/-- Modelled from the spec (§4.4): after a whole-store reorder, every index
slot's position is rebuilt from scratch. -/
def rebuildIndex (es : List Bucket) : List (Nat × Nat) :=
  es.enum.map (fun ib => (ib.2.hash, ib.1))

/-- Insertion step of the model's entry sort (sorted insertion by key). -/
def insertSorted (b : Bucket) : List Bucket → List Bucket
  | [] => [b]
  | c :: cs => if b.key ≤ c.key then b :: c :: cs else c :: insertSorted b cs

/-- Insertion sort of the Entry Store by key. -/
def sortEntries : List Bucket → List Bucket
  | [] => []
  | b :: bs => insertSorted b (sortEntries bs)

/-- Modelled from the spec (§4.4): `sort_by` reorders the whole Entry Store
(here: by key), then rebuilds every index slot's position. -/
def IndexMapModel.sort_by_key (m : IndexMapModel) : IndexMapModel :=
  let es := sortEntries m.entries
  { entries := es, index := rebuildIndex es }

/-- Modelled from the spec (§4.4): `swap_indices(p, q)` swaps two records and
repairs both index slots; out-of-range positions leave the map unchanged. -/
def IndexMapModel.swap_indices (m : IndexMapModel) (p q : Nat) : IndexMapModel :=
  match m.entries[p]?, m.entries[q]? with
  | some bp, some bq =>
    { entries := (m.entries.set p bq).set q bp,
      index := m.index.map (fun s =>
        if s.2 = p then (s.1, q) else if s.2 = q then (s.1, p) else s) }
  | _, _ => m

/-- Modelled from the spec (§4.4): checked positional access. -/
def IndexMapModel.get_index (m : IndexMapModel) (p : Nat) : Option Bucket :=
  m.entries[p]?

/-- Modelled from the spec (§4.2 `insert_full` / keyed lookup): a keyed
lookup probes and reports the key's position together with its value. -/
def IndexMapModel.get_full (m : IndexMapModel) (h : Nat → Nat) (k : Nat) :
    Option (Nat × Nat) :=
  match probePos m (h k) k with
  | none => none
  | some p =>
    match m.entries[p]? with
    | none => none
    | some b => some (p, b.value)

/-- The operations of the claimed operation sequences: insert, remove (either
strategy), sort and swap. -/
inductive Op where
  | insert (k v : Nat)
  | swap_remove (k : Nat)
  | shift_remove (k : Nat)
  | sort
  | swap_indices (p q : Nat)
deriving DecidableEq

def applyOp (h : Nat → Nat) (m : IndexMapModel) : Op → IndexMapModel
  | .insert k v => m.insert h k v
  | .swap_remove k => (m.swap_remove h k).2
  | .shift_remove k => (m.shift_remove h k).2
  | .sort => m.sort_by_key
  | .swap_indices p q => m.swap_indices p q

def emptyModel : IndexMapModel := ⟨[], []⟩

def run (h : Nat → Nat) (ops : List Op) : IndexMapModel :=
  ops.foldl (applyOp h) emptyModel

def keys (m : IndexMapModel) : List Nat :=
  m.entries.map Bucket.key

/-- The Hashed Index invariant (spec §3): every slot points at an occupied
position and stores that record's hash (no stale slot), every occupied
position has exactly one slot, every stored record hash is the hash of its
key, and the stored keys are pairwise distinct. -/
def Inv (h : Nat → Nat) (m : IndexMapModel) : Prop :=
  (∀ s ∈ m.index, (m.entries[s.2]?).map Bucket.hash = some s.1) ∧
  (∀ p ∈ List.range m.entries.length, m.index.countP (fun s => s.2 == p) = 1) ∧
  (∀ b ∈ m.entries, b.hash = h b.key) ∧
  (keys m).Nodup

instance (h : Nat → Nat) (m : IndexMapModel) : Decidable (Inv h m) :=
  inferInstanceAs (Decidable
    ((∀ s ∈ m.index, (m.entries[s.2]?).map Bucket.hash = some s.1) ∧
      (∀ p ∈ List.range m.entries.length, m.index.countP (fun s => s.2 == p) = 1) ∧
      (∀ b ∈ m.entries, b.hash = h b.key) ∧
      (keys m).Nodup))

theorem getElem?_dropLast' {β : Type} (l : List β) (i : Nat) :
    l.dropLast[i]? = if i < l.length - 1 then l[i]? else none := by
  rw [List.dropLast_eq_take, List.getElem?_take]

theorem getElem?_eraseIdx' {β : Type} :
    ∀ (l : List β) (p i : Nat),
      (l.eraseIdx p)[i]? = if i < p then l[i]? else l[i + 1]? := by
  intro l
  induction l with
  | nil =>
    intro p i
    simp [List.eraseIdx]
  | cons x xs ih =>
    intro p i
    cases p with
    | zero => simp [List.eraseIdx]
    | succ p =>
      cases i with
      | zero => simp [List.eraseIdx]
      | succ i =>
        simp only [List.eraseIdx, List.getElem?_cons_succ, ih p i,
          Nat.succ_lt_succ_iff]

theorem set_getElem?_self {β : Type} (l : List β) (p : Nat) (a : β)
    (h : l[p]? = some a) : l.set p a = l := by
  apply List.ext_getElem?
  intro n
  rw [List.getElem?_set]
  by_cases hpn : p = n
  · subst hpn
    have hlt : p < l.length := (List.getElem?_eq_some_iff.mp h).1
    simp [hlt, h]
  · simp [hpn]

theorem set_dropLast_comm {β : Type} (l : List β) (p : Nat) (a : β)
    (hp : p < l.length - 1) : (l.set p a).dropLast = l.dropLast.set p a := by
  apply List.ext_getElem?
  intro n
  rw [getElem?_dropLast', List.getElem?_set, List.getElem?_set, getElem?_dropLast',
    List.length_set, List.length_dropLast]
  by_cases hpn : p = n
  · subst hpn
    simp only [if_pos rfl]
    by_cases hn : p < l.length - 1
    · simp [hn, Nat.lt_of_lt_of_le hn (Nat.sub_le _ _), hp]
    · simp [hn]
  · simp [hpn]

theorem nodup_getElem?_inj {β : Type} {l : List β} (hl : l.Nodup) {i j : Nat}
    {a : β} (hi : l[i]? = some a) (hj : l[j]? = some a) : i = j := by
  obtain ⟨hilt, hieq⟩ := List.getElem?_eq_some_iff.mp hi
  obtain ⟨hjlt, hjeq⟩ := List.getElem?_eq_some_iff.mp hj
  have hinj := List.nodup_iff_injective_get.mp hl
  have : l.get ⟨i, hilt⟩ = l.get ⟨j, hjlt⟩ := by
    simp only [List.get_eq_getElem]
    rw [hieq, hjeq]
  have := hinj this
  exact congrArg Fin.val this

theorem nodup_set_not_mem {β : Type} {a : β} :
    ∀ (l : List β) (n : Nat), l.Nodup → a ∉ l → (l.set n a).Nodup := by
  intro l
  induction l with
  | nil => intro n _ _; simp
  | cons x xs ih =>
    intro n hnd hna
    rw [List.nodup_cons] at hnd
    have hax : a ≠ x := fun hax => hna (hax ▸ List.mem_cons_self x xs)
    have haxs : a ∉ xs := fun haxs => hna (List.mem_cons_of_mem x haxs)
    cases n with
    | zero =>
      rw [List.set]
      exact List.nodup_cons.mpr ⟨haxs, hnd.2⟩
    | succ n =>
      rw [List.set]
      refine List.nodup_cons.mpr ⟨?_, ih n hnd.2 haxs⟩
      intro hx
      rcases List.mem_or_eq_of_mem_set hx with hmem | heq
      · exact hnd.1 hmem
      · exact hax heq.symm

theorem countP_exists_of_one {β : Type} {l : List β} {p : β → Bool}
    (h : l.countP p = 1) : ∃ s ∈ l, p s = true := by
  by_contra hno
  push_neg at hno
  have : l.countP p = 0 := List.countP_eq_zero.mpr (by
    intro s hs
    simp [hno s hs])
  omega

theorem slot_pos_lt {h : Nat → Nat} {m : IndexMapModel} (hInv : Inv h m)
    {s : Nat × Nat} (hs : s ∈ m.index) : s.2 < m.entries.length := by
  have := hInv.1 s hs
  rw [Option.map_eq_some'] at this
  obtain ⟨b, hb, _⟩ := this
  exact (List.getElem?_eq_some_iff.mp hb).1

theorem probePos_some_spec {m : IndexMapModel} {hv k p : Nat}
    (h : probePos m hv k = some p) :
    ∃ s ∈ m.index, s.2 = p ∧ s.1 = hv ∧
      ∃ b, m.entries[p]? = some b ∧ b.key = k := by
  rw [probePos, Option.map_eq_some'] at h
  obtain ⟨s, hfind, hs2⟩ := h
  have hmem := List.mem_of_find?_eq_some hfind
  have hpred := List.find?_some hfind
  rw [Bool.and_eq_true] at hpred
  obtain ⟨hhash, hkey⟩ := hpred
  refine ⟨s, hmem, hs2, by simpa using hhash, ?_⟩
  cases hb : m.entries[s.2]? with
  | none => rw [hb] at hkey; simp at hkey
  | some b =>
    rw [hb] at hkey
    simp only [beq_iff_eq] at hkey
    exact ⟨b, hs2 ▸ hb, hkey⟩

theorem probePos_none_of_not_mem {m : IndexMapModel} {hv k : Nat}
    (hk : k ∉ keys m) : probePos m hv k = none := by
  cases hp : probePos m hv k with
  | none => rfl
  | some p =>
    obtain ⟨s, _, _, _, b, hb, hbk⟩ := probePos_some_spec hp
    exfalso
    apply hk
    rw [keys]
    have hmem : b ∈ m.entries := by
      obtain ⟨hlt, heq⟩ := List.getElem?_eq_some_iff.mp hb
      exact heq ▸ List.getElem_mem hlt
    exact hbk ▸ List.mem_map_of_mem Bucket.key hmem

theorem probePos_eq_some_of_inv {h : Nat → Nat} {m : IndexMapModel}
    (hInv : Inv h m) {p : Nat} {b : Bucket} (hb : m.entries[p]? = some b) :
    probePos m (h b.key) b.key = some p := by
  obtain ⟨hS, hC, hH, hN⟩ := hInv
  have hplt : p < m.entries.length := (List.getElem?_eq_some_iff.mp hb).1
  have hone := hC p (List.mem_range.mpr hplt)
  obtain ⟨s, hsmem, hsp⟩ := countP_exists_of_one hone
  simp only [beq_iff_eq] at hsp
  have hs1 : s.1 = b.hash := by
    have := hS s hsmem
    rw [hsp, hb] at this
    simp only [Option.map_some'] at this
    injection this with hh
    exact hh.symm
  have hbmem : b ∈ m.entries := by
    obtain ⟨hlt, heq⟩ := List.getElem?_eq_some_iff.mp hb
    exact heq ▸ List.getElem_mem hlt
  have hbh : b.hash = h b.key := hH b hbmem
  have hpred : (s.1 == h b.key &&
      (match m.entries[s.2]? with
        | some b2 => b2.key == b.key
        | none => false)) = true := by
    rw [hsp, hb, hs1, hbh]
    simp
  have hsome : ((m.index.find? (fun s : Nat × Nat =>
      s.1 == h b.key &&
        (match m.entries[s.2]? with
          | some b2 => b2.key == b.key
          | none => false)))).isSome = true :=
    List.find?_isSome.mpr ⟨s, hsmem, hpred⟩
  rw [Option.isSome_iff_exists] at hsome
  obtain ⟨s0, hfind⟩ := hsome
  have hs0pred := List.find?_some hfind
  rw [Bool.and_eq_true] at hs0pred
  obtain ⟨_, hs0key⟩ := hs0pred
  have hs02 : s0.2 = p := by
    cases hb0 : m.entries[s0.2]? with
    | none => rw [hb0] at hs0key; simp at hs0key
    | some b0 =>
      rw [hb0] at hs0key
      simp only [beq_iff_eq] at hs0key
      have hk0 : (keys m)[s0.2]? = some b.key := by
        rw [keys, List.getElem?_map, hb0, Option.map_some', hs0key]
      have hkp : (keys m)[p]? = some b.key := by
        rw [keys, List.getElem?_map, hb, Option.map_some']
      exact nodup_getElem?_inj hN hk0 hkp
  rw [probePos, hfind, Option.map_some', hs02]

theorem get_full_of_inv {h : Nat → Nat} {m : IndexMapModel} (hInv : Inv h m)
    {p : Nat} {b : Bucket} (hb : m.entries[p]? = some b) :
    m.get_full h b.key = some (p, b.value) := by
  simp only [IndexMapModel.get_full, probePos_eq_some_of_inv hInv hb, hb]

theorem mem_keys_iff {m : IndexMapModel} {k : Nat} :
    k ∈ keys m ↔ ∃ (p : Nat) (b : Bucket), m.entries[p]? = some b ∧ b.key = k := by
  rw [keys, List.mem_map]
  constructor
  · rintro ⟨b, hbmem, hbk⟩
    obtain ⟨p, hp⟩ := List.mem_iff_getElem?.mp hbmem
    exact ⟨p, b, hp, hbk⟩
  · rintro ⟨p, b, hp, hbk⟩
    obtain ⟨hlt, heq⟩ := List.getElem?_eq_some_iff.mp hp
    exact ⟨b, heq ▸ List.getElem_mem hlt, hbk⟩

theorem probePos_none_iff_of_inv {h : Nat → Nat} {m : IndexMapModel}
    (hInv : Inv h m) {k : Nat} :
    probePos m (h k) k = none ↔ k ∉ keys m := by
  constructor
  · intro hnone hmem
    obtain ⟨p, b, hp, hbk⟩ := mem_keys_iff.mp hmem
    have := probePos_eq_some_of_inv hInv hp
    rw [hbk] at this
    rw [this] at hnone
    exact Option.noConfusion hnone
  · exact probePos_none_of_not_mem

theorem inv_insert (h : Nat → Nat) (m : IndexMapModel) (k v : Nat)
    (hInv : Inv h m) : Inv h (m.insert h k v) := by
  obtain ⟨hS, hC, hH, hN⟩ := hInv
  cases hp : probePos m (h k) k with
  | some p =>
    obtain ⟨s, hsmem, hs2, hs1, b, hb, hbk⟩ := probePos_some_spec hp
    simp only [IndexMapModel.insert, hp, hb]
    have hplt : p < m.entries.length := (List.getElem?_eq_some_iff.mp hb).1
    have hbmem : b ∈ m.entries := by
      obtain ⟨hlt, heq⟩ := List.getElem?_eq_some_iff.mp hb
      exact heq ▸ List.getElem_mem hlt
    refine ⟨?_, ?_, ?_, ?_⟩
    · intro s2 hs2mem
      have hold := hS s2 hs2mem
      simp only [List.getElem?_set]
      by_cases hps : p = s2.2
      · rw [if_pos hps, if_pos (hps ▸ hplt)]
        rw [← hps, hb] at hold
        simpa using hold
      · rw [if_neg hps]
        exact hold
    · intro q hq
      simp only [List.length_set] at hq
      exact hC q hq
    · intro b2 hb2
      rcases List.mem_or_eq_of_mem_set hb2 with hmem | heq
      · exact hH b2 hmem
      · rw [heq]
        exact hH b hbmem
    · have : keys { m with entries := m.entries.set p ⟨b.hash, b.key, v⟩ } = keys m := by
        rw [keys, keys, List.map_set]
        apply set_getElem?_self
        rw [List.getElem?_map, hb, Option.map_some']
      rw [this]
      exact hN
  | none =>
    have hknot : k ∉ keys m := (probePos_none_iff_of_inv ⟨hS, hC, hH, hN⟩).mp hp
    simp only [IndexMapModel.insert, hp]
    refine ⟨?_, ?_, ?_, ?_⟩
    · intro s hsmem
      rcases List.mem_append.mp hsmem with hold | hnew
      · have hlt := slot_pos_lt ⟨hS, hC, hH, hN⟩ hold
        rw [List.getElem?_append, if_pos hlt]
        exact hS s hold
      · have hseq : s = (h k, m.entries.length) := by simpa using hnew
        rw [hseq]
        simp only [List.getElem?_concat_length, Option.map_some']
    · intro q hq
      rw [List.length_append, List.length_singleton] at hq
      rw [List.countP_append]
      by_cases hql : q < m.entries.length
      · have h1 := hC q (List.mem_range.mpr hql)
        have h0 : List.countP (fun s => s.2 == q) [((h k : Nat), m.entries.length)] = 0 := by
          simp only [List.countP_cons, List.countP_nil]
          have : m.entries.length ≠ q := Nat.ne_of_gt hql
          simp [this]
        omega
      · have hqeq : q = m.entries.length := by
          rw [List.mem_range] at hq
          omega
        have h0 : List.countP (fun s => s.2 == q) m.index = 0 := by
          rw [List.countP_eq_zero]
          intro s hs
          have := slot_pos_lt ⟨hS, hC, hH, hN⟩ hs
          simp only [beq_iff_eq]
          omega
        have h1 : List.countP (fun s => s.2 == q) [((h k : Nat), m.entries.length)] = 1 := by
          simp [List.countP_cons, hqeq]
        omega
    · intro b2 hb2
      rcases List.mem_append.mp hb2 with hold | hnew
      · exact hH b2 hold
      · have : b2 = ⟨h k, k, v⟩ := by simpa using hnew
        rw [this]
    · rw [keys, List.map_append]
      rw [List.nodup_append]
      refine ⟨hN, List.nodup_singleton _, ?_⟩
      intro a ha hamem
      have : a = k := by simpa using hamem
      rw [this] at ha
      exact hknot ha

theorem inv_swap_remove (h : Nat → Nat) (m : IndexMapModel) (k : Nat)
    (hInv : Inv h m) : Inv h (m.swap_remove h k).2 := by
  obtain ⟨hS, hC, hH, hN⟩ := hInv
  cases hp : probePos m (h k) k with
  | none => simpa only [IndexMapModel.swap_remove, hp] using ⟨hS, hC, hH, hN⟩
  | some p =>
    obtain ⟨s, hsmem, hs2, hs1, b, hb, hbk⟩ := probePos_some_spec hp
    have hplt : p < m.entries.length := (List.getElem?_eq_some_iff.mp hb).1
    by_cases hpl : p = m.entries.length - 1
    · simp only [IndexMapModel.swap_remove, hp, hb, if_pos hpl]
      refine ⟨?_, ?_, ?_, ?_⟩
      · intro s2 hs2mem
        obtain ⟨hs2idx, hs2p⟩ := List.mem_filter.mp hs2mem
        have hs2lt := slot_pos_lt ⟨hS, hC, hH, hN⟩ hs2idx
        have hs2ne : s2.2 ≠ p := by simpa using hs2p
        rw [getElem?_dropLast', if_pos (by omega)]
        exact hS s2 hs2idx
      · intro q hq
        rw [List.mem_range, List.length_dropLast] at hq
        rw [List.countP_filter]
        have hqp : q ≠ p := by omega
        have : List.countP
            (fun s2 : Nat × Nat => s2.2 == q && !(s2.2 == p)) m.index =
            List.countP (fun s2 : Nat × Nat => s2.2 == q) m.index := by
          apply List.countP_congr
          intro s2 _
          by_cases hs2q : s2.2 = q <;> simp [hs2q, hqp, Ne.symm hqp]
        rw [this]
        exact hC q (List.mem_range.mpr (by omega))
      · intro b2 hb2
        exact hH b2 ((List.dropLast_sublist m.entries).subset hb2)
      · exact ((List.dropLast_sublist m.entries).map Bucket.key).nodup hN
    · have hlast : m.entries.length - 1 < m.entries.length := by omega
      cases hbl : m.entries[m.entries.length - 1]? with
      | none =>
        exfalso
        have := List.getElem?_eq_none_iff.mp hbl
        omega
      | some bl =>
        simp only [IndexMapModel.swap_remove, hp, hb, if_neg hpl, hbl]
        have hplast : p < m.entries.length - 1 := by omega
        have hes : (m.entries.set p bl).dropLast = m.entries.dropLast.set p bl :=
          set_dropLast_comm m.entries p bl hplast
        have hchar : ∀ i : Nat, (m.entries.dropLast.set p bl)[i]? =
            if p = i then some bl
            else if i < m.entries.length - 1 then m.entries[i]? else none := by
          intro i
          rw [List.getElem?_set, List.length_dropLast, getElem?_dropLast']
          by_cases hip : p = i
          · rw [if_pos hip, if_pos hip, if_pos hplast]
          · rw [if_neg hip, if_neg hip]
        refine ⟨?_, ?_, ?_, ?_⟩
        · intro s2 hs2mem
          rw [hes]
          obtain ⟨s0, hs0mem, hs0eq⟩ := List.mem_map.mp hs2mem
          obtain ⟨hs0idx, hs0p⟩ := List.mem_filter.mp hs0mem
          have hs0lt := slot_pos_lt ⟨hS, hC, hH, hN⟩ hs0idx
          have hs0ne : s0.2 ≠ p := by simpa using hs0p
          by_cases h0l : s0.2 = m.entries.length - 1
          · rw [← hs0eq, if_pos h0l]
            have hblh : bl.hash = s0.1 := by
              have := hS s0 hs0idx
              rw [h0l, hbl] at this
              simpa using this
            rw [hchar p, if_pos rfl, Option.map_some', hblh]
          · rw [← hs0eq, if_neg h0l]
            rw [hchar s0.2, if_neg (Ne.symm hs0ne), if_pos (by omega)]
            exact hS s0 hs0idx
        · intro q hq
          rw [List.mem_range, List.length_dropLast, List.length_set] at hq
          have hqlast : q ≠ m.entries.length - 1 := by omega
          rw [List.countP_map, List.countP_filter]
          have hplne : p ≠ m.entries.length - 1 := hpl
          trans (List.countP (fun s0 : Nat × Nat =>
            s0.2 == (if q = p then m.entries.length - 1 else q)) m.index)
          · apply List.countP_congr
            intro s0 hs0
            by_cases h0l : s0.2 = m.entries.length - 1 <;>
              by_cases hqp : q = p <;>
                simp [h0l, hqp, hplne, hqlast] <;> omega
          · by_cases hqp : q = p
            · rw [if_pos hqp]
              exact hC _ (List.mem_range.mpr hlast)
            · rw [if_neg hqp]
              exact hC _ (List.mem_range.mpr (by omega))
        · intro b2 hb2
          rw [hes] at hb2
          rcases List.mem_or_eq_of_mem_set hb2 with hmem | heq
          · exact hH b2 ((List.dropLast_sublist m.entries).subset hmem)
          · rw [heq]
            apply hH
            obtain ⟨hlt2, heq2⟩ := List.getElem?_eq_some_iff.mp hbl
            exact heq2 ▸ List.getElem_mem hlt2
        · rw [hes, keys, List.map_set]
          have hkeysdl : (List.map Bucket.key m.entries.dropLast).Nodup :=
            ((List.dropLast_sublist m.entries).map Bucket.key).nodup hN
          apply nodup_set_not_mem _ _ hkeysdl
          intro hmem
          rw [List.map_dropLast] at hmem
          rw [List.mem_iff_getElem?] at hmem
          obtain ⟨i, hi⟩ := hmem
          rw [getElem?_dropLast'] at hi
          by_cases hilt : i < (List.map Bucket.key m.entries).length - 1
          · rw [if_pos hilt] at hi
            have hkl : (List.map Bucket.key m.entries)[m.entries.length - 1]? =
                some bl.key := by
              rw [List.getElem?_map, hbl, Option.map_some']
            have := nodup_getElem?_inj hN hi hkl
            rw [List.length_map] at hilt
            omega
          · rw [if_neg hilt] at hi
            exact Option.noConfusion hi

theorem inv_shift_remove (h : Nat → Nat) (m : IndexMapModel) (k : Nat)
    (hInv : Inv h m) : Inv h (m.shift_remove h k).2 := by
  obtain ⟨hS, hC, hH, hN⟩ := hInv
  cases hp : probePos m (h k) k with
  | none => simpa only [IndexMapModel.shift_remove, hp] using ⟨hS, hC, hH, hN⟩
  | some p =>
    obtain ⟨s, hsmem, hs2, hs1, b, hb, hbk⟩ := probePos_some_spec hp
    have hplt : p < m.entries.length := (List.getElem?_eq_some_iff.mp hb).1
    simp only [IndexMapModel.shift_remove, hp, hb]
    have hlen : (m.entries.eraseIdx p).length = m.entries.length - 1 := by
      rw [List.length_eraseIdx, if_pos hplt]
    refine ⟨?_, ?_, ?_, ?_⟩
    · intro s2 hs2mem
      obtain ⟨s0, hs0mem, hs0eq⟩ := List.mem_map.mp hs2mem
      obtain ⟨hs0idx, hs0p⟩ := List.mem_filter.mp hs0mem
      have hs0lt := slot_pos_lt ⟨hS, hC, hH, hN⟩ hs0idx
      have hs0ne : s0.2 ≠ p := by simpa using hs0p
      by_cases h0g : p < s0.2
      · rw [← hs0eq, if_pos h0g]
        rw [getElem?_eraseIdx', if_neg (by omega)]
        have : s0.2 - 1 + 1 = s0.2 := by omega
        rw [this]
        exact hS s0 hs0idx
      · rw [← hs0eq, if_neg h0g]
        rw [getElem?_eraseIdx', if_pos (by omega)]
        exact hS s0 hs0idx
    · intro q hq
      rw [List.mem_range, hlen] at hq
      rw [List.countP_map, List.countP_filter]
      trans (List.countP (fun s0 : Nat × Nat =>
        s0.2 == (if q < p then q else q + 1)) m.index)
      · apply List.countP_congr
        intro s0 hs0
        by_cases h0g : p < s0.2 <;>
          by_cases hqp : q < p <;>
            simp [h0g, hqp] <;> omega
      · by_cases hqp : q < p
        · rw [if_pos hqp]
          exact hC q (List.mem_range.mpr (by omega))
        · rw [if_neg hqp]
          exact hC (q + 1) (List.mem_range.mpr (by omega))
    · intro b2 hb2
      exact hH b2 ((List.eraseIdx_sublist m.entries p).subset hb2)
    · show (List.map Bucket.key (m.entries.eraseIdx p)).Nodup
      exact ((List.eraseIdx_sublist m.entries p).map Bucket.key).nodup hN

theorem insertSorted_perm (b : Bucket) :
    ∀ l : List Bucket, List.Perm (insertSorted b l) (b :: l) := by
  intro l
  induction l with
  | nil => exact List.Perm.refl _
  | cons c cs ih =>
    rw [insertSorted]
    by_cases hbc : b.key ≤ c.key
    · rw [if_pos hbc]
    · rw [if_neg hbc]
      exact (ih.cons c).trans (List.Perm.swap b c cs)

theorem sortEntries_perm :
    ∀ l : List Bucket, List.Perm (sortEntries l) l := by
  intro l
  induction l with
  | nil => exact List.Perm.refl _
  | cons b bs ih =>
    rw [sortEntries]
    exact (insertSorted_perm b (sortEntries bs)).trans (ih.cons b)

theorem inv_sort_by_key (h : Nat → Nat) (m : IndexMapModel)
    (hInv : Inv h m) : Inv h m.sort_by_key := by
  obtain ⟨hS, hC, hH, hN⟩ := hInv
  have hperm : List.Perm (sortEntries m.entries) m.entries :=
    sortEntries_perm m.entries
  rw [IndexMapModel.sort_by_key]
  refine ⟨?_, ?_, ?_, ?_⟩
  · intro s2 hs2mem
    rw [rebuildIndex] at hs2mem
    obtain ⟨ib, hibmem, hibeq⟩ := List.mem_map.mp hs2mem
    have hibget := List.mem_enum_iff_getElem?.mp hibmem
    rw [← hibeq]
    simp only [hibget, Option.map_some']
  · intro q hq
    rw [List.mem_range] at hq
    rw [rebuildIndex, List.countP_map]
    have h1 : List.countP
        ((fun s : Nat × Nat => s.2 == q) ∘ (fun ib : Nat × Bucket => (ib.2.hash, ib.1)))
        (sortEntries m.entries).enum =
        List.countP ((fun x : Nat => x == q) ∘ Prod.fst)
          (sortEntries m.entries).enum := rfl
    rw [h1, ← List.countP_map, List.enum_map_fst, ← List.count_eq_countP]
    exact List.count_eq_one_of_mem (List.nodup_range _) (List.mem_range.mpr hq)
  · intro b2 hb2
    exact hH b2 (hperm.mem_iff.mp hb2)
  · exact ((hperm.map Bucket.key).nodup_iff).mpr hN

theorem nodup_of_getElem?_inj {β : Type} {l : List β}
    (h : ∀ (i j : Nat) (a : β), l[i]? = some a → l[j]? = some a → i = j) :
    l.Nodup := by
  rw [List.nodup_iff_injective_get]
  intro i j heq
  have hi : l[i.1]? = some (l.get i) := by
    rw [List.getElem?_eq_some_iff]
    exact ⟨i.2, rfl⟩
  have hj : l[j.1]? = some (l.get i) := by
    rw [List.getElem?_eq_some_iff]
    exact ⟨j.2, heq.symm⟩
  exact Fin.ext (h i.1 j.1 (l.get i) hi hj)

theorem nodup_set_swap {β : Type} {l : List β} (hl : l.Nodup) {p q : Nat}
    {a b : β} (hp : l[p]? = some a) (hq : l[q]? = some b) :
    ((l.set p b).set q a).Nodup := by
  have hplt : p < l.length := (List.getElem?_eq_some_iff.mp hp).1
  have hqlt : q < l.length := (List.getElem?_eq_some_iff.mp hq).1
  have hchar : ∀ i : Nat, ((l.set p b).set q a)[i]? =
      if q = i then some a else if p = i then some b else l[i]? := by
    intro i
    rw [List.getElem?_set, List.getElem?_set, List.length_set]
    by_cases hqi : q = i
    · rw [if_pos hqi, if_pos hqi, if_pos (by omega)]
    · rw [if_neg hqi, if_neg hqi]
      by_cases hpi : p = i
      · rw [if_pos hpi, if_pos hpi, if_pos (by omega)]
      · rw [if_neg hpi, if_neg hpi]
  apply nodup_of_getElem?_inj
  intro i j c hi hj
  rw [hchar] at hi hj
  by_cases hqi : q = i
  · rw [if_pos hqi] at hi
    have hca : c = a := by injection hi with hh; exact hh.symm
    by_cases hqj : q = j
    · omega
    · rw [if_neg hqj] at hj
      by_cases hpj : p = j
      · rw [if_pos hpj] at hj
        have hcb : c = b := by injection hj with hh; exact hh.symm
        have : p = q := nodup_getElem?_inj hl hp (hca ▸ hcb ▸ hq)
        omega
      · rw [if_neg hpj] at hj
        have : p = j := nodup_getElem?_inj hl hp (hca ▸ hj)
        omega
  · rw [if_neg hqi] at hi
    by_cases hpi : p = i
    · rw [if_pos hpi] at hi
      have hcb : c = b := by injection hi with hh; exact hh.symm
      by_cases hqj : q = j
      · rw [if_pos hqj] at hj
        have hca : c = a := by injection hj with hh; exact hh.symm
        have : p = q := nodup_getElem?_inj hl hp (hca ▸ hcb ▸ hq)
        omega
      · rw [if_neg hqj] at hj
        by_cases hpj : p = j
        · omega
        · rw [if_neg hpj] at hj
          have : q = j := nodup_getElem?_inj hl hq (hcb ▸ hj)
          omega
    · rw [if_neg hpi] at hi
      by_cases hqj : q = j
      · rw [if_pos hqj] at hj
        have hca : c = a := by injection hj with hh; exact hh.symm
        have : p = i := nodup_getElem?_inj hl hp (hca ▸ hi)
        omega
      · rw [if_neg hqj] at hj
        by_cases hpj : p = j
        · rw [if_pos hpj] at hj
          have hcb : c = b := by injection hj with hh; exact hh.symm
          have : q = i := nodup_getElem?_inj hl hq (hcb ▸ hi)
          omega
        · rw [if_neg hpj] at hj
          exact nodup_getElem?_inj hl hi hj

theorem inv_swap_indices (h : Nat → Nat) (m : IndexMapModel) (p q : Nat)
    (hInv : Inv h m) : Inv h (m.swap_indices p q) := by
  obtain ⟨hS, hC, hH, hN⟩ := hInv
  cases hbp : m.entries[p]? with
  | none =>
    cases hbq : m.entries[q]? with
    | none => simpa only [IndexMapModel.swap_indices, hbp, hbq] using ⟨hS, hC, hH, hN⟩
    | some bq => simpa only [IndexMapModel.swap_indices, hbp, hbq] using ⟨hS, hC, hH, hN⟩
  | some bp =>
    cases hbq : m.entries[q]? with
    | none => simpa only [IndexMapModel.swap_indices, hbp, hbq] using ⟨hS, hC, hH, hN⟩
    | some bq =>
      simp only [IndexMapModel.swap_indices, hbp, hbq]
      have hplt : p < m.entries.length := (List.getElem?_eq_some_iff.mp hbp).1
      have hqlt : q < m.entries.length := (List.getElem?_eq_some_iff.mp hbq).1
      have hchar : ∀ i : Nat, ((m.entries.set p bq).set q bp)[i]? =
          if q = i then some bp else if p = i then some bq else m.entries[i]? := by
        intro i
        rw [List.getElem?_set, List.getElem?_set, List.length_set]
        by_cases hqi : q = i
        · rw [if_pos hqi, if_pos hqi, if_pos (by omega)]
        · rw [if_neg hqi, if_neg hqi]
          by_cases hpi : p = i
          · rw [if_pos hpi, if_pos hpi, if_pos (by omega)]
          · rw [if_neg hpi, if_neg hpi]
      refine ⟨?_, ?_, ?_, ?_⟩
      · intro s2 hs2mem
        obtain ⟨s0, hs0mem, hs0eq⟩ := List.mem_map.mp hs2mem
        have hs0lt := slot_pos_lt ⟨hS, hC, hH, hN⟩ hs0mem
        by_cases h0p : s0.2 = p
        · rw [← hs0eq, if_pos h0p]
          rw [hchar q, if_pos rfl]
          have := hS s0 hs0mem
          rw [h0p, hbp] at this
          simpa using this
        · by_cases h0q : s0.2 = q
          · rw [← hs0eq, if_neg h0p, if_pos h0q]
            rw [hchar p]
            have hqp : ¬(q = p) := fun hc => h0p (hc ▸ h0q)
            rw [if_neg hqp, if_pos rfl]
            have := hS s0 hs0mem
            rw [h0q, hbq] at this
            simpa using this
          · rw [← hs0eq, if_neg h0p, if_neg h0q]
            rw [hchar s0.2, if_neg (fun hc => h0q hc.symm), if_neg (fun hc => h0p hc.symm)]
            exact hS s0 hs0mem
      · intro r hr
        rw [List.mem_range, List.length_set, List.length_set] at hr
        rw [List.countP_map]
        trans (List.countP (fun s0 : Nat × Nat =>
          s0.2 == (if r = p then q else if r = q then p else r)) m.index)
        · apply List.countP_congr
          intro s0 hs0
          simp only [Function.comp_apply, beq_iff_eq]
          split_ifs <;> (try simp_all) <;> omega
        · by_cases hrp : r = p
          · rw [if_pos hrp]
            exact hC q (List.mem_range.mpr hqlt)
          · rw [if_neg hrp]
            by_cases hrq : r = q
            · rw [if_pos hrq]
              exact hC p (List.mem_range.mpr hplt)
            · rw [if_neg hrq]
              exact hC r (List.mem_range.mpr hr)
      · intro b2 hb2
        rcases List.mem_or_eq_of_mem_set hb2 with hmem | heq
        · rcases List.mem_or_eq_of_mem_set hmem with hmem2 | heq2
          · exact hH b2 hmem2
          · rw [heq2]
            apply hH
            obtain ⟨hlt2, heq3⟩ := List.getElem?_eq_some_iff.mp hbq
            exact heq3 ▸ List.getElem_mem hlt2
        · rw [heq]
          apply hH
          obtain ⟨hlt2, heq3⟩ := List.getElem?_eq_some_iff.mp hbp
          exact heq3 ▸ List.getElem_mem hlt2
      · rw [keys, List.map_set, List.map_set]
        apply nodup_set_swap hN
        · rw [keys, List.getElem?_map, hbp, Option.map_some']
        · rw [keys, List.getElem?_map, hbq, Option.map_some']

theorem inv_applyOp (h : Nat → Nat) (m : IndexMapModel) (op : Op)
    (hInv : Inv h m) : Inv h (applyOp h m op) := by
  cases op with
  | insert k v => exact inv_insert h m k v hInv
  | swap_remove k => exact inv_swap_remove h m k hInv
  | shift_remove k => exact inv_shift_remove h m k hInv
  | sort => exact inv_sort_by_key h m hInv
  | swap_indices p q => exact inv_swap_indices h m p q hInv

theorem inv_empty (h : Nat → Nat) : Inv h emptyModel := by
  refine ⟨?_, ?_, ?_, ?_⟩ <;> simp [keys, emptyModel]

theorem inv_foldl (h : Nat → Nat) :
    ∀ (ops : List Op) (m : IndexMapModel), Inv h m →
      Inv h (ops.foldl (applyOp h) m) := by
  intro ops
  induction ops with
  | nil => intro m hm; exact hm
  | cons op ops ih =>
    intro m hm
    rw [List.foldl_cons]
    exact ih (applyOp h m op) (inv_applyOp h m op hm)

theorem inv_run (h : Nat → Nat) (ops : List Op) : Inv h (run h ops) :=
  inv_foldl h ops emptyModel (inv_empty h)

/-- C1: after any finite sequence of insert / swap-remove / shift-remove /
sort / swap-indices operations starting from the empty map, the Hashed Index
invariant holds (every occupied position has exactly one slot resolving its
record's hash to it, and no stale slot points elsewhere), and for every
surviving key at position `p`, `get_index p` returns its record while a keyed
lookup of that key returns the same value and reports position `p`. -/
theorem map_index_hash_consistency (h : Nat → Nat) (ops : List Op) :
    Inv h (run h ops) ∧
    ∀ (p : Nat) (b : Bucket), (run h ops).entries[p]? = some b →
      (run h ops).get_index p = some b ∧
      (run h ops).get_full h b.key = some (p, b.value) := by
  have hInv : Inv h (run h ops) := inv_run h ops
  refine ⟨hInv, ?_⟩
  intro p b hb
  exact ⟨hb, get_full_of_inv hInv hb⟩

def opsExample : List Op :=
  [.insert 5 50, .insert 3 30, .insert 7 70, .insert 3 31, .swap_remove 5,
    .sort, .shift_remove 7, .swap_indices 0 1, .insert 1 10]

theorem map_index_hash_consistency_witness :
    ((run (fun n => n) opsExample).entries[1]? = some ⟨1, 1, 10⟩) ∧
      (Inv (fun n => n) (run (fun n => n) opsExample)) ∧
      ((run (fun n => n) opsExample).get_index 1 = some ⟨1, 1, 10⟩ ∧
        (run (fun n => n) opsExample).get_full (fun n => n) 1 = some (1, 10)) :=
  ⟨by decide, (map_index_hash_consistency (fun n => n) opsExample).1,
    (map_index_hash_consistency (fun n => n) opsExample).2 1 ⟨1, 1, 10⟩ (by decide)⟩

/-- C9: for a key absent from the map, both swap-remove and shift-remove
signal "absent" and return the map unchanged (length, order and contents
untouched); for a present key, both return the removed key and value. -/
theorem remove_absent_noop_present_reports (h : Nat → Nat) (m : IndexMapModel)
    (k : Nat) (hInv : Inv h m) :
    (k ∉ keys m →
      m.swap_remove h k = (none, m) ∧ m.shift_remove h k = (none, m)) ∧
    (k ∈ keys m →
      ∃ (p : Nat) (b : Bucket), m.entries[p]? = some b ∧ b.key = k ∧
        (m.swap_remove h k).1 = some (k, b.value) ∧
        (m.shift_remove h k).1 = some (k, b.value)) := by
  constructor
  · intro hk
    have hnone := @probePos_none_of_not_mem m (h k) k hk
    constructor
    · simp only [IndexMapModel.swap_remove, hnone]
    · simp only [IndexMapModel.shift_remove, hnone]
  · intro hk
    obtain ⟨p, b, hb, hbk⟩ := mem_keys_iff.mp hk
    have hprobe : probePos m (h k) k = some p := by
      have := probePos_eq_some_of_inv hInv hb
      rw [hbk] at this
      exact this
    have hplt : p < m.entries.length := (List.getElem?_eq_some_iff.mp hb).1
    refine ⟨p, b, hb, hbk, ?_, ?_⟩
    · by_cases hpl : p = m.entries.length - 1
      · simp only [IndexMapModel.swap_remove, hprobe, hb, if_pos hpl, hbk]
      · have hlast : m.entries.length - 1 < m.entries.length := by omega
        cases hbl : m.entries[m.entries.length - 1]? with
        | none =>
          exfalso
          have := List.getElem?_eq_none_iff.mp hbl
          omega
        | some bl =>
          simp only [IndexMapModel.swap_remove, hprobe, hb, if_neg hpl, hbl, hbk]
    · simp only [IndexMapModel.shift_remove, hprobe, hb, hbk]

theorem remove_absent_noop_present_reports_witness :
    Inv (fun n => n) (run (fun n => n) [Op.insert 2 20, Op.insert 4 40]) ∧
      ((9 ∉ keys (run (fun n => n) [Op.insert 2 20, Op.insert 4 40]) →
        (run (fun n => n) [Op.insert 2 20, Op.insert 4 40]).swap_remove
            (fun n => n) 9 =
          (none, run (fun n => n) [Op.insert 2 20, Op.insert 4 40]) ∧
        (run (fun n => n) [Op.insert 2 20, Op.insert 4 40]).shift_remove
            (fun n => n) 9 =
          (none, run (fun n => n) [Op.insert 2 20, Op.insert 4 40])) ∧
      (9 ∈ keys (run (fun n => n) [Op.insert 2 20, Op.insert 4 40]) →
        ∃ (p : Nat) (b : Bucket),
          (run (fun n => n) [Op.insert 2 20, Op.insert 4 40]).entries[p]? =
            some b ∧ b.key = 9 ∧
          ((run (fun n => n) [Op.insert 2 20, Op.insert 4 40]).swap_remove
            (fun n => n) 9).1 = some (9, b.value) ∧
          ((run (fun n => n) [Op.insert 2 20, Op.insert 4 40]).shift_remove
            (fun n => n) 9).1 = some (9, b.value))) :=
  ⟨by decide,
    remove_absent_noop_present_reports (fun n => n)
      (run (fun n => n) [Op.insert 2 20, Op.insert 4 40]) 9 (by decide)⟩

end IndexmapSpec
